import Mathlib

/-!
# Verification of the HankookTire SmartSensor 2.0 monitoring stack

A shallow embedding, in Lean 4, of the parts of the repository that the
checkable sentences of the specification talk about:

* `monitoring/auto-recovery/self_healing_system.py` — recovery planning with
  a cooldown ledger, deployment scaling, the system health score, the
  Prometheus metrics parser, and recovery-action execution;
* `monitoring/ai-analytics/anomaly_detector.py` — deduplication and ranking
  of anomaly results;
* `backend/app/main.py` — the data-quality score of a raw sensor reading;
* `monitoring/scripts/health-check.py` — the overall health status.

Python numbers are modelled as `Int` (replica counts, epoch seconds) and `ℚ`
(scores, confidences); Python dicts keyed by strings are modelled as
association lists with in-place overwrite, which matches dict update order.
Library calls that leave the process (Kubernetes API, HTTP, `float(...)`)
are abstracted as explicit oracle parameters; everything else is translated
clause by clause from the Python source.
-/

namespace SmartSensor

/-! ## Association-list maps (Python `dict` with string keys)

`dset` models `d[k] = v`: it overwrites the first (unique, for dicts) entry
in place, and appends at the end when the key is absent, preserving dict
insertion order. `dget` models `d[k]` / `k in d`. -/

abbrev Ledger := List (String × Int)

def ledLookup : Ledger → String → Option Int
  | [], _ => none
  | (k2, v) :: rest, k => if k2 = k then some v else ledLookup rest k

def ledSet : Ledger → String → Int → Ledger
  | [], k, v => [(k, v)]
  | (k2, v2) :: rest, k, v =>
      if k2 = k then (k, v) :: rest else (k2, v2) :: ledSet rest k v

theorem ledLookup_ledSet_self (m : Ledger) (k : String) (v : Int) :
    ledLookup (ledSet m k v) k = some v := by
  induction m with
  | nil => simp [ledSet, ledLookup]
  | cons p rest ih =>
      obtain ⟨k2, v2⟩ := p
      by_cases h : k2 = k
      · simp [ledSet, h, ledLookup]
      · simp [ledSet, h, ledLookup, ih]

theorem ledLookup_ledSet_ne (m : Ledger) (k k2 : String) (v : Int)
    (h : k2 ≠ k) : ledLookup (ledSet m k v) k2 = ledLookup m k2 := by
  induction m with
  | nil => simp [ledSet, ledLookup, if_neg (Ne.symm h)]
  | cons p rest ih =>
      obtain ⟨k3, v3⟩ := p
      by_cases h3 : k3 = k
      · subst h3
        simp [ledSet, ledLookup, if_neg (Ne.symm h)]
      · simp [ledSet, h3, ledLookup, ih]

/-! ## `self_healing_system.py`: enums and data classes -/

/-- `class RecoveryAction(Enum)` of `self_healing_system.py`. -/
inductive RecoveryAction where
  | restart_pod
  | scale_up
  | scale_down
  | restart_service
  | clear_cache
  | rotate_logs
  | update_config
  | failover
  | circuit_breaker
  | cleanup_resources
  | rebalance_load
  | chaos_test
deriving DecidableEq, Repr

/-- The `.value` strings of `RecoveryAction`. -/
def RecoveryAction.value : RecoveryAction → String
  | .restart_pod => "restart_pod"
  | .scale_up => "scale_up"
  | .scale_down => "scale_down"
  | .restart_service => "restart_service"
  | .clear_cache => "clear_cache"
  | .rotate_logs => "rotate_logs"
  | .update_config => "update_config"
  | .failover => "failover"
  | .circuit_breaker => "circuit_breaker"
  | .cleanup_resources => "cleanup_resources"
  | .rebalance_load => "rebalance_load"
  | .chaos_test => "chaos_test"

/-- `class Severity(Enum)`: INFO=1 … EMERGENCY=5. -/
inductive Severity where
  | info
  | warning
  | error
  | critical
  | emergency
deriving DecidableEq, Repr

/-- The numeric `.value` of `Severity`. -/
def Severity.value : Severity → Nat
  | .info => 1
  | .warning => 2
  | .error => 3
  | .critical => 4
  | .emergency => 5

/-- `@dataclass class HealthIssue` (the `metrics` dict and the wall-clock
`timestamp` carry no logic used by any verified routine and are kept as an
opaque-to-the-claims `Int` timestamp and omitted metrics). -/
structure HealthIssue where
  component : String
  issue_type : String
  severity : Severity
  description : String
  timestamp : Int
  auto_recoverable : Bool := true
  recovery_actions : List RecoveryAction := []
  cooldown_period : Int := 300
deriving DecidableEq, Repr

/-- `@dataclass class RecoveryResult`. -/
structure RecoveryResult where
  action : RecoveryAction
  target : String
  success : Bool
  duration : ℚ
  message : String
  timestamp : ℚ
deriving DecidableEq, Repr

/-! ## `SelfHealingSystem.analyze_and_plan_recovery`

The planner state is the accumulated `recovery_plan` list plus the
`self.action_cooldowns` dict; time is the epoch instant `now` of the call
(`datetime.now()` in the source). -/

/-- `cooldown_key = f"{issue.component}_{issue.issue_type}"`. -/
def cooldownKey (issue : HealthIssue) : String :=
  issue.component ++ "_" ++ issue.issue_type

structure PlanState where
  plan : List (HealthIssue × RecoveryAction)
  cooldowns : Ledger
deriving DecidableEq, Repr

/-- The cooldown test of `analyze_and_plan_recovery`: skip the issue when
`cooldown_key in self.action_cooldowns` and
`now - last_action_time < timedelta(seconds=issue.cooldown_period)`. -/
def cooldownBlocked (now : Int) (cds : Ledger) (issue : HealthIssue) : Bool :=
  match ledLookup cds (cooldownKey issue) with
  | some last => decide (now - last < issue.cooldown_period)
  | none => false

/-- One iteration of the `for issue in sorted_issues` loop. -/
def planStep (now : Int) (st : PlanState) (issue : HealthIssue) : PlanState :=
  if issue.auto_recoverable = false then st
  else if cooldownBlocked now st.cooldowns issue then st
  else
    match issue.recovery_actions with
    | [] => st
    | a :: _ =>
        { plan := st.plan ++ [(issue, a)],
          cooldowns := ledSet st.cooldowns (cooldownKey issue) now }

/-- `sorted(health_issues, key=lambda x: x.severity.value, reverse=True)`:
a stable descending sort on the severity value (the CPython reverse sort keeps
equal keys in their original order, as `List.mergeSort` does for this `le`).
-/
def sortIssuesBySeverity (issues : List HealthIssue) : List HealthIssue :=
  issues.mergeSort (fun a b => decide (b.severity.value ≤ a.severity.value))

/-- `SelfHealingSystem.analyze_and_plan_recovery`, with the call instant and
the current cooldown ledger made explicit. -/
def analyze_and_plan_recovery (now : Int) (cooldowns : Ledger)
    (health_issues : List HealthIssue) : PlanState :=
  (sortIssuesBySeverity health_issues).foldl (planStep now)
    { plan := [], cooldowns := cooldowns }

/-- The times at which a plan entry for cooldown key `k` is admitted, over a
trace of planner calls `(now, issues)` that thread the cooldown ledger. -/
def admissionTimes (k : String) : Ledger → List (Int × List HealthIssue) → List Int
  | _, [] => []
  | cds, (t, issues) :: rest =>
      let st := analyze_and_plan_recovery t cds issues
      ((st.plan.filter (fun p => cooldownKey p.1 = k)).map (fun _ => t)) ++
        admissionTimes k st.cooldowns rest

/-- Number of plan entries already admitted for cooldown key `k`. -/
def kCount (k : String) (st : PlanState) : Nat :=
  (st.plan.filter (fun p => cooldownKey p.1 = k)).length

theorem planStep_cases (now : Int) (st : PlanState) (issue : HealthIssue) :
    planStep now st issue = st ∨
    (issue.auto_recoverable = true ∧
     cooldownBlocked now st.cooldowns issue = false ∧
     ∃ a rest, issue.recovery_actions = a :: rest ∧
       planStep now st issue =
         { plan := st.plan ++ [(issue, a)],
           cooldowns := ledSet st.cooldowns (cooldownKey issue) now }) := by
  unfold planStep
  rcases hauto : issue.auto_recoverable with _ | _
  · simp
  · rcases hblk : cooldownBlocked now st.cooldowns issue with _ | _
    · rcases hact : issue.recovery_actions with _ | ⟨a, rest⟩
      · simp
      · right
        exact ⟨rfl, rfl, a, rest, rfl, by simp⟩
    · simp

theorem kCount_append_one (k : String) (plan : List (HealthIssue × RecoveryAction))
    (cds cds2 : Ledger) (i : HealthIssue) (a : RecoveryAction) :
    kCount k { plan := plan ++ [(i, a)], cooldowns := cds2 } =
      kCount k { plan := plan, cooldowns := cds } +
        (if cooldownKey i = k then 1 else 0) := by
  by_cases h : cooldownKey i = k <;> simp [kCount, List.filter_append, h]

/-- While the ledger holds an entry `last` for `k` that is still cooling down
(`now - last < c`), a planning pass admits nothing for `k` and leaves the
entry untouched. -/
theorem foldPlan_blocked (now : Int) (k : String) (c : Int) :
    ∀ (l : List HealthIssue) (st : PlanState) (last : Int),
      (∀ i ∈ l, cooldownKey i = k → i.cooldown_period = c) →
      ledLookup st.cooldowns k = some last → now - last < c →
      ledLookup (l.foldl (planStep now) st).cooldowns k = some last ∧
      kCount k (l.foldl (planStep now) st) = kCount k st := by
  intro l
  induction l with
  | nil => intro st last _ h2 _; exact ⟨h2, rfl⟩
  | cons i rest ih =>
      intro st last h1 h2 h3
      rcases planStep_cases now st i with hcase | ⟨hauto, hblk, a, acts, hact, heq⟩
      · rw [List.foldl_cons, hcase]
        exact ih st last (fun j hj => h1 j (List.mem_cons_of_mem i hj)) h2 h3
      · by_cases hk : cooldownKey i = k
        · exfalso
          have hcp : i.cooldown_period = c := h1 i (List.mem_cons_self i rest) hk
          have : cooldownBlocked now st.cooldowns i = true := by
            unfold cooldownBlocked
            rw [hk, h2, hcp]
            simpa using h3
          rw [this] at hblk
          simp at hblk
        · rw [List.foldl_cons, heq]
          have h2b : ledLookup (ledSet st.cooldowns (cooldownKey i) now) k = some last := by
            rw [ledLookup_ledSet_ne _ _ _ _ (fun h => hk h.symm)]
            exact h2
          have := ih { plan := st.plan ++ [(i, a)],
                       cooldowns := ledSet st.cooldowns (cooldownKey i) now }
            last (fun j hj => h1 j (List.mem_cons_of_mem i hj)) h2b h3
          refine ⟨this.1, ?_⟩
          rw [this.2, kCount_append_one k st.plan st.cooldowns _ i a, if_neg hk]
          exact rfl

/-- Across a planning pass the ledger entry for `k` either is untouched with
no `k`-admission, or ends at `some now` with at least one `k`-admission. -/
theorem foldPlan_ledger (now : Int) (k : String) :
    ∀ (l : List HealthIssue) (st : PlanState),
      (ledLookup (l.foldl (planStep now) st).cooldowns k = ledLookup st.cooldowns k ∧
       kCount k (l.foldl (planStep now) st) = kCount k st) ∨
      (ledLookup (l.foldl (planStep now) st).cooldowns k = some now ∧
       kCount k st < kCount k (l.foldl (planStep now) st)) := by
  intro l
  induction l with
  | nil => intro st; exact Or.inl ⟨rfl, rfl⟩
  | cons i rest ih =>
      intro st
      rcases planStep_cases now st i with hcase | ⟨hauto, hblk, a, acts, hact, heq⟩
      · rw [List.foldl_cons, hcase]; exact ih st
      · rw [List.foldl_cons, heq]
        set st1 : PlanState :=
          { plan := st.plan ++ [(i, a)],
            cooldowns := ledSet st.cooldowns (cooldownKey i) now } with hst1
        by_cases hk : cooldownKey i = k
        · have hlk : ledLookup st1.cooldowns k = some now := by
            rw [hst1]; dsimp only; rw [hk]; exact ledLookup_ledSet_self _ _ _
          have hct : kCount k st1 = kCount k st + 1 := by
            rw [hst1]
            rw [kCount_append_one k st.plan st.cooldowns _ i a, if_pos hk]
          rcases ih st1 with ⟨hl, hc⟩ | ⟨hl, hc⟩
          · exact Or.inr ⟨by rw [hl, hlk], by omega⟩
          · exact Or.inr ⟨hl, by omega⟩
        · have hlk : ledLookup st1.cooldowns k = ledLookup st.cooldowns k := by
            rw [hst1]; dsimp only
            exact ledLookup_ledSet_ne _ _ _ _ (fun h => hk h.symm)
          have hct : kCount k st1 = kCount k st := by
            rw [hst1]
            rw [kCount_append_one k st.plan st.cooldowns _ i a, if_neg hk]
            exact rfl
          rcases ih st1 with ⟨hl, hc⟩ | ⟨hl, hc⟩
          · exact Or.inl ⟨by rw [hl, hlk], by rw [hc, hct]⟩
          · exact Or.inr ⟨hl, by omega⟩

/-- If a pass starting with ledger entry `last` for `k` admits anything for
`k`, the first admission had to pass the cooldown check: `last + c ≤ now`. -/
theorem foldPlan_first_admit (now : Int) (k : String) (c : Int) :
    ∀ (l : List HealthIssue) (st : PlanState) (last : Int),
      (∀ i ∈ l, cooldownKey i = k → i.cooldown_period = c) →
      ledLookup st.cooldowns k = some last →
      kCount k st < kCount k (l.foldl (planStep now) st) →
      last + c ≤ now := by
  intro l
  induction l with
  | nil => intro st last _ _ h3; exact absurd h3 (by simp)
  | cons i rest ih =>
      intro st last h1 h2 h3
      rcases planStep_cases now st i with hcase | ⟨hauto, hblk, a, acts, hact, heq⟩
      · rw [List.foldl_cons, hcase] at h3
        exact ih st last (fun j hj => h1 j (List.mem_cons_of_mem i hj)) h2 h3
      · by_cases hk : cooldownKey i = k
        · have hcp : i.cooldown_period = c := h1 i (List.mem_cons_self i rest) hk
          unfold cooldownBlocked at hblk
          rw [hk, h2, hcp] at hblk
          simp only [decide_eq_false_iff_not, not_lt] at hblk
          omega
        · rw [List.foldl_cons, heq] at h3
          set st1 : PlanState :=
            { plan := st.plan ++ [(i, a)],
              cooldowns := ledSet st.cooldowns (cooldownKey i) now } with hst1
          have h2b : ledLookup st1.cooldowns k = some last := by
            rw [hst1]; dsimp only
            rw [ledLookup_ledSet_ne _ _ _ _ (fun h => hk h.symm)]
            exact h2
          have hct : kCount k st1 = kCount k st := by
            rw [hst1]
            rw [kCount_append_one k st.plan st.cooldowns _ i a, if_neg hk]
            exact rfl
          refine ih st1 last (fun j hj => h1 j (List.mem_cons_of_mem i hj)) h2b ?_
          omega

/-- With a strictly positive cooldown, a single planning pass admits at most
one action per key: the first admission blocks the rest of the pass. -/
theorem foldPlan_single (now : Int) (k : String) (c : Int) (hc : 0 < c) :
    ∀ (l : List HealthIssue) (st : PlanState),
      (∀ i ∈ l, cooldownKey i = k → i.cooldown_period = c) →
      kCount k (l.foldl (planStep now) st) ≤ kCount k st + 1 := by
  intro l
  induction l with
  | nil => intro st _; simp
  | cons i rest ih =>
      intro st h1
      rcases planStep_cases now st i with hcase | ⟨hauto, hblk, a, acts, hact, heq⟩
      · rw [List.foldl_cons, hcase]
        exact ih st (fun j hj => h1 j (List.mem_cons_of_mem i hj))
      · rw [List.foldl_cons, heq]
        set st1 : PlanState :=
          { plan := st.plan ++ [(i, a)],
            cooldowns := ledSet st.cooldowns (cooldownKey i) now } with hst1
        by_cases hk : cooldownKey i = k
        · have hlk : ledLookup st1.cooldowns k = some now := by
            rw [hst1]; dsimp only; rw [hk]; exact ledLookup_ledSet_self _ _ _
          have hct : kCount k st1 = kCount k st + 1 := by
            rw [hst1]
            rw [kCount_append_one k st.plan st.cooldowns _ i a, if_pos hk]
          have := foldPlan_blocked now k c rest st1 now
            (fun j hj => h1 j (List.mem_cons_of_mem i hj)) hlk (by omega)
          omega
        · have hct : kCount k st1 = kCount k st := by
            rw [hst1]
            rw [kCount_append_one k st.plan st.cooldowns _ i a, if_neg hk]
            exact rfl
          have := ih st1 (fun j hj => h1 j (List.mem_cons_of_mem i hj))
          omega

theorem pairwise_of_length_le_one {α : Type} {R : α → α → Prop} :
    ∀ (l : List α), l.length ≤ 1 → l.Pairwise R
  | [], _ => List.Pairwise.nil
  | [_], _ => by simp
  | _ :: _ :: _, h => by simp at h

/-- Main invariant over a trace of planning calls that thread the cooldown
ledger: admissions for a fixed key `k` whose issues all carry cooldown `c`
are at least `c` apart, and an inherited ledger entry `last` delays every
admission to `last + c` or later. -/
theorem admissionTimes_spec (k : String) (c : Int) (hc : 0 ≤ c) :
    ∀ (trace : List (Int × List HealthIssue)) (cds : Ledger),
      (∀ call ∈ trace, ∀ i ∈ call.2, cooldownKey i = k → i.cooldown_period = c) →
      List.Pairwise (fun t1 t2 => t1 + c ≤ t2) (admissionTimes k cds trace) ∧
      (∀ last, ledLookup cds k = some last →
        ∀ s ∈ admissionTimes k cds trace, last + c ≤ s) := by
  intro trace
  induction trace with
  | nil => intro cds _; exact ⟨List.Pairwise.nil, by intro last _ s hs; simp [admissionTimes] at hs⟩
  | cons call rest ih =>
      obtain ⟨t, issues⟩ := call
      intro cds hsame
      have hsame0 : ∀ i ∈ sortIssuesBySeverity issues,
          cooldownKey i = k → i.cooldown_period = c := by
        intro i hi
        exact hsame (t, issues) (List.mem_cons_self _ _) i (List.mem_mergeSort.mp hi)
      have hsamerest : ∀ call2 ∈ rest, ∀ i ∈ call2.2,
          cooldownKey i = k → i.cooldown_period = c :=
        fun call2 h2 => hsame call2 (List.mem_cons_of_mem _ h2)
      set st0 : PlanState := { plan := [], cooldowns := cds } with hst0
      set st := analyze_and_plan_recovery t cds issues with hst
      set A := ((st.plan.filter (fun p => cooldownKey p.1 = k)).map (fun _ => t)) with hA
      have hunfold : admissionTimes k cds ((t, issues) :: rest) =
          A ++ admissionTimes k st.cooldowns rest := rfl
      have hlenA : A.length = kCount k st := by
        rw [hA, List.length_map]; rfl
      have hmemA : ∀ s ∈ A, s = t := by
        intro s hs
        rw [hA] at hs
        obtain ⟨p, _, hp⟩ := List.mem_map.mp hs
        exact hp.symm
      have hfold : st = (sortIssuesBySeverity issues).foldl (planStep t) st0 := rfl
      have hinit : kCount k st0 = 0 := rfl
      have hlk0 : ledLookup st0.cooldowns k = ledLookup cds k := rfl
      have hledger := foldPlan_ledger t k (sortIssuesBySeverity issues) st0
      rw [← hfold] at hledger
      have hlkst : A ≠ [] → ledLookup st.cooldowns k = some t := by
        intro hne
        rcases hledger with ⟨_, hcnt⟩ | ⟨hlk, _⟩
        · exfalso
          rw [hinit] at hcnt
          have : A.length = 0 := by rw [hlenA, hcnt]
          exact hne (List.length_eq_zero.mp this)
        · exact hlk
      have hfirst : ∀ last, ledLookup cds k = some last → A ≠ [] → last + c ≤ t := by
        intro last hlast hne
        have hgrow : kCount k st0 < kCount k st := by
          rw [hinit]
          rcases hledger with ⟨_, hcnt⟩ | ⟨_, hgt⟩
          · exfalso
            rw [hinit] at hcnt
            have : A.length = 0 := by rw [hlenA, hcnt]
            exact hne (List.length_eq_zero.mp this)
          · rw [hinit] at hgt; exact hgt
        exact foldPlan_first_admit t k c (sortIssuesBySeverity issues)
          st0 last hsame0 (by rw [hlk0]; exact hlast) (by rw [← hfold]; exact hgrow)
      obtain ⟨ihPair, ihBound⟩ := ih st.cooldowns hsamerest
      constructor
      · rw [hunfold]
        rw [List.pairwise_append]
        refine ⟨?_, ihPair, ?_⟩
        · by_cases hcz : 0 < c
          · have hone : kCount k st ≤ kCount k st0 + 1 := by
              rw [hfold]
              exact foldPlan_single t k c hcz (sortIssuesBySeverity issues) _ hsame0
            apply pairwise_of_length_le_one
            rw [hlenA]
            rw [hinit] at hone
            omega
          · have hceq : c = 0 := by omega
            apply List.pairwise_of_forall_mem_list
            intro a ha b hb
            rw [hmemA a ha, hmemA b hb, hceq]
            omega
        · intro a ha b hb
          rw [hmemA a ha]
          have hne : A ≠ [] := by intro h; rw [h] at ha; exact absurd ha (List.not_mem_nil a)
          exact ihBound t (hlkst hne) b hb
      · intro last hlast s hs
        rw [hunfold] at hs
        rcases List.mem_append.mp hs with hsA | hsB
        · rw [hmemA s hsA]
          have hne : A ≠ [] := by intro h; rw [h] at hsA; exact absurd hsA (List.not_mem_nil s)
          exact hfirst last hlast hne
        · rcases hledger with ⟨hlk, _⟩ | ⟨hlk, hgt⟩
          · have : ledLookup st.cooldowns k = some last := by
              rw [hlk]; exact hlast
            exact ihBound last this s hsB
          · have hne : A ≠ [] := by
              intro h
              have : A.length = 0 := by rw [h]; rfl
              rw [hlenA] at this
              rw [hinit] at hgt
              omega
            have h1 : last + c ≤ t := hfirst last hlast hne
            have h2 : t + c ≤ s := ihBound t hlk s hsB
            omega

theorem foldPlan_auto (now : Int) :
    ∀ (l : List HealthIssue) (st : PlanState),
      (∀ p ∈ st.plan, p.1.auto_recoverable = true) →
      ∀ p ∈ (l.foldl (planStep now) st).plan, p.1.auto_recoverable = true := by
  intro l
  induction l with
  | nil => intro st h; exact h
  | cons i rest ih =>
      intro st h
      rcases planStep_cases now st i with hcase | ⟨hauto, hblk, a, acts, hact, heq⟩
      · rw [List.foldl_cons, hcase]; exact ih st h
      · rw [List.foldl_cons, heq]
        apply ih
        intro p hp
        rcases List.mem_append.mp hp with hp1 | hp2
        · exact h p hp1
        · rw [List.mem_singleton.mp hp2]
          exact hauto

theorem foldPlan_ledger_source (now : Int) :
    ∀ (l : List HealthIssue) (st : PlanState) (k2 : String),
      ledLookup (l.foldl (planStep now) st).cooldowns k2 ≠ ledLookup st.cooldowns k2 →
      ∃ i ∈ l, i.auto_recoverable = true ∧ cooldownKey i = k2 := by
  intro l
  induction l with
  | nil => intro st k2 h; exact absurd rfl h
  | cons i rest ih =>
      intro st k2 h
      rcases planStep_cases now st i with hcase | ⟨hauto, hblk, a, acts, hact, heq⟩
      · rw [List.foldl_cons, hcase] at h
        obtain ⟨j, hj, hja⟩ := ih st k2 h
        exact ⟨j, List.mem_cons_of_mem i hj, hja⟩
      · by_cases hk : cooldownKey i = k2
        · exact ⟨i, List.mem_cons_self i rest, hauto, hk⟩
        · rw [List.foldl_cons, heq] at h
          have hpres : ledLookup (ledSet st.cooldowns (cooldownKey i) now) k2 =
              ledLookup st.cooldowns k2 :=
            ledLookup_ledSet_ne _ _ _ _ (fun h2 => hk h2.symm)
          have : ledLookup ((rest.foldl (planStep now))
              { plan := st.plan ++ [(i, a)],
                cooldowns := ledSet st.cooldowns (cooldownKey i) now }).cooldowns k2 ≠
              ledLookup (ledSet st.cooldowns (cooldownKey i) now) k2 := by
            rw [hpres]; exact h
          obtain ⟨j, hj, hja⟩ := ih _ k2 this
          exact ⟨j, List.mem_cons_of_mem i hj, hja⟩

/-- **C1.** Once a recovery action for cooldown key `k` is admitted into a
recovery plan at time `t` with cooldown period `c`, no further action for
that key is admitted before `t + c` (admission times are pairwise at least
`c` apart along any trace of planning calls); the ledger check admits a key
iff no entry exists or the deadline `last + c` of the previous entry has been
reached; and admission installs the new deadline base `now` for the key. -/
theorem claim_C1_cooldown_respected (k : String) (c : Int) (hc : 0 ≤ c)
    (trace : List (Int × List HealthIssue)) (cds : Ledger)
    (hsame : ∀ call ∈ trace, ∀ i ∈ call.2, cooldownKey i = k → i.cooldown_period = c) :
    List.Pairwise (fun t1 t2 => t1 + c ≤ t2) (admissionTimes k cds trace) ∧
    (∀ (now : Int) (cds0 : Ledger) (issue : HealthIssue),
      cooldownKey issue = k → issue.cooldown_period = c →
      (cooldownBlocked now cds0 issue = false ↔
        (ledLookup cds0 k = none ∨
         ∃ last, ledLookup cds0 k = some last ∧ last + c ≤ now))) ∧
    (∀ (now : Int) (st : PlanState) (issue : HealthIssue) (a : RecoveryAction)
        (acts : List RecoveryAction),
      issue.auto_recoverable = true →
      cooldownBlocked now st.cooldowns issue = false →
      issue.recovery_actions = a :: acts →
      (planStep now st issue).plan = st.plan ++ [(issue, a)] ∧
      ledLookup (planStep now st issue).cooldowns (cooldownKey issue) = some now) := by
  refine ⟨(admissionTimes_spec k c hc trace cds hsame).1, ?_, ?_⟩
  · intro now cds0 issue hkey hcp
    unfold cooldownBlocked
    rw [hkey, hcp]
    cases hlk : ledLookup cds0 k with
    | none => simp
    | some last =>
        simp only [decide_eq_false_iff_not, not_lt]
        constructor
        · intro h
          exact Or.inr ⟨last, rfl, by omega⟩
        · rintro (h | ⟨last2, hl2, h2⟩)
          · exact absurd h (by simp)
          · have : last2 = last := by
              injection hl2 with h3
              exact h3.symm
            omega
  · intro now st issue a acts hauto hblk hact
    have : planStep now st issue =
        { plan := st.plan ++ [(issue, a)],
          cooldowns := ledSet st.cooldowns (cooldownKey issue) now } := by
      unfold planStep
      rw [hauto, hblk, hact]
      simp
    rw [this]
    exact ⟨rfl, ledLookup_ledSet_self _ _ _⟩

/-- A three-call trace exercising `claim_C1_cooldown_respected`: the same
CPU issue on `api` reported at times 0, 100 and 400 with cooldown 300. -/
def issueC1 (t : Int) : HealthIssue :=
  { component := "api", issue_type := "high_cpu_usage", severity := .warning,
    description := "cpu", timestamp := t, auto_recoverable := true,
    recovery_actions := [.scale_up], cooldown_period := 300 }

def traceC1 : List (Int × List HealthIssue) :=
  [(0, [issueC1 0]), (100, [issueC1 100]), (400, [issueC1 400])]

theorem claim_C1_cooldown_respected_witness :
    List.Pairwise (fun t1 t2 => t1 + 300 ≤ t2)
      (admissionTimes ("api_high_cpu_usage") [] traceC1) :=
  (claim_C1_cooldown_respected ("api_high_cpu_usage") 300 (by decide) traceC1 []
    (by decide)).1

/-- **C2.** Issues with `auto_recoverable = false` never contribute a
`(issue, action)` pair to the recovery plan, and every change of the
cooldown ledger during planning originates from an auto-recoverable issue
of the input list. -/
theorem claim_C2_non_recoverable_skipped (now : Int) (cds : Ledger)
    (issues : List HealthIssue) :
    (∀ p ∈ (analyze_and_plan_recovery now cds issues).plan,
      p.1.auto_recoverable = true) ∧
    (∀ k2, ledLookup (analyze_and_plan_recovery now cds issues).cooldowns k2 ≠
        ledLookup cds k2 →
      ∃ i ∈ issues, i.auto_recoverable = true ∧ cooldownKey i = k2) := by
  constructor
  · exact foldPlan_auto now (sortIssuesBySeverity issues)
      { plan := [], cooldowns := cds } (by intro p hp; exact absurd hp (List.not_mem_nil p))
  · intro k2 h
    obtain ⟨i, hi, hia⟩ := foldPlan_ledger_source now (sortIssuesBySeverity issues)
      { plan := [], cooldowns := cds } k2 h
    exact ⟨i, List.mem_mergeSort.mp hi, hia⟩

/-- The non-auto-recoverable issue built by `check_sensor_connectivity`
for a high sensor offline rate. -/
def sensorIssue : HealthIssue :=
  { component := "sensor-network", issue_type := "high_offline_rate",
    severity := .critical, description := "offline rate high", timestamp := 0,
    auto_recoverable := false,
    recovery_actions := [.restart_service, .failover], cooldown_period := 300 }

theorem claim_C2_non_recoverable_skipped_witness :
    ¬ (ledLookup (analyze_and_plan_recovery 0 [] [sensorIssue]).cooldowns
        ("sensor-network_high_offline_rate") ≠
      ledLookup [] ("sensor-network_high_offline_rate")) := by
  intro h
  obtain ⟨i, hi, hauto, hkey⟩ :=
    (claim_C2_non_recoverable_skipped 0 [] [sensorIssue]).2
      ("sensor-network_high_offline_rate") h
  rw [List.mem_singleton.mp hi] at hauto
  simp [sensorIssue] at hauto

/-! ## `SelfHealingSystem.update_system_status`: the health score -/

/-- The `severity_weights` table of `update_system_status`
(0.1, 0.3, 0.6, 0.8, 1.0). -/
def severityWeight : Severity → ℚ
  | .info => 1/10
  | .warning => 3/10
  | .error => 6/10
  | .critical => 8/10
  | .emergency => 1

/-- The health-score computation of `update_system_status`: 100 with no
active issues, else `max(0, 100 - total_impact * 10)` where `total_impact`
sums the per-issue severity weights. -/
def health_score (health_issues : List HealthIssue) : ℚ :=
  if health_issues = [] then 100
  else max 0 (100 - (health_issues.map (fun i => severityWeight i.severity)).sum * 10)

theorem severityWeight_nonneg (s : Severity) : 0 ≤ severityWeight s := by
  cases s <;> norm_num [severityWeight]

theorem mem_le_sum_of_nonneg :
    ∀ (l : List ℚ), (∀ x ∈ l, 0 ≤ x) → ∀ x ∈ l, x ≤ l.sum := by
  intro l
  induction l with
  | nil => intro _ x hx; cases hx
  | cons a rest ih =>
      intro h0 x hx
      rw [List.sum_cons]
      rcases List.mem_cons.mp hx with rfl | h
      · have hr : 0 ≤ rest.sum :=
          List.sum_nonneg (fun y hy => h0 y (List.mem_cons_of_mem x hy))
        linarith
      · have h1 := ih (fun y hy => h0 y (List.mem_cons_of_mem a hy)) x h
        have ha := h0 a (List.mem_cons_self a rest)
        linarith

/-- An Emergency-severity issue used as a concrete input. -/
def emergencyIssue : HealthIssue :=
  { component := "database", issue_type := "service_down", severity := .emergency,
    description := "db down", timestamp := 0, auto_recoverable := true,
    recovery_actions := [.restart_service], cooldown_period := 300 }

/-- **C3, counterexample.** A single Emergency issue yields health score 90,
not 0 as the claim states: the Emergency weight 1.0 subtracts only 10
points. -/
theorem claim_C3_counterexample :
    health_score [emergencyIssue] = 90 ∧ health_score [emergencyIssue] ≠ 0 := by
  constructor <;> norm_num [health_score, severityWeight, emergencyIssue]

/-- **C3, amended.** The health score always lies in `[0, 100]`; with no
active issue it is exactly 100; and with at least one Emergency-severity
issue it is at most 90 (each Emergency contributes weight 1.0, i.e. 10
points, rather than forcing the score to 0). -/
theorem claim_C3_amended (health_issues : List HealthIssue) :
    0 ≤ health_score health_issues ∧ health_score health_issues ≤ 100 ∧
    (health_issues = [] → health_score health_issues = 100) ∧
    ((∃ i ∈ health_issues, i.severity = .emergency) →
      health_score health_issues ≤ 90) := by
  have hsum : 0 ≤ (health_issues.map (fun i => severityWeight i.severity)).sum := by
    apply List.sum_nonneg
    intro x hx
    obtain ⟨i, _, hi⟩ := List.mem_map.mp hx
    rw [← hi]
    exact severityWeight_nonneg i.severity
  refine ⟨?_, ?_, ?_, ?_⟩
  · unfold health_score
    split
    · norm_num
    · exact le_max_left 0 _
  · unfold health_score
    split
    · norm_num
    · apply max_le (by norm_num)
      nlinarith
  · intro h; simp [health_score, h]
  · rintro ⟨i, hi, hsev⟩
    have hne : health_issues ≠ [] := by
      intro h; rw [h] at hi; exact absurd hi (List.not_mem_nil i)
    have hmem : severityWeight i.severity ∈
        health_issues.map (fun j => severityWeight j.severity) :=
      List.mem_map.mpr ⟨i, hi, rfl⟩
    have h1 : (1 : ℚ) ≤ (health_issues.map (fun j => severityWeight j.severity)).sum := by
      have := mem_le_sum_of_nonneg (health_issues.map (fun j => severityWeight j.severity))
        (fun x hx => by
          obtain ⟨j, _, hj⟩ := List.mem_map.mp hx
          rw [← hj]; exact severityWeight_nonneg j.severity) _ hmem
      rw [hsev] at this
      simpa [severityWeight] using this
    unfold health_score
    rw [if_neg hne]
    apply max_le (by norm_num)
    nlinarith

theorem claim_C3_amended_witness :
    health_score [] = 100 ∧ health_score [emergencyIssue] ≤ 90 :=
  ⟨(claim_C3_amended []).2.2.1 rfl,
   (claim_C3_amended [emergencyIssue]).2.2.2
     ⟨emergencyIssue, List.mem_singleton.mpr rfl, rfl⟩⟩

/-! ## Deployment scaling (`scale_deployment`, proactive scaling) -/

/-- The replica computation of `SelfHealingSystem.scale_deployment`:
`min(current + 1, 10)` on scale up, `max(current - 1, 1)` on scale down;
when the computed count equals the current one no patch is issued, so the
returned value is the desired replica count in every case. -/
def scale_deployment (current_replicas : Int) (scale_up : Bool) : Int :=
  if scale_up then min (current_replicas + 1) 10 else max (current_replicas - 1) 1

/-- `SelfHealingSystem.proactive_scale_up`: add one replica while below 5. -/
def proactive_scale_up (current_replicas : Int) : Int :=
  if current_replicas < 5 then current_replicas + 1 else current_replicas

/-- `SelfHealingSystem.proactive_scale_down`: remove one replica while
above 2. -/
def proactive_scale_down (current_replicas : Int) : Int :=
  if current_replicas > 2 then current_replicas - 1 else current_replicas

/-- **C7, counterexample.** From 12 replicas (outside the hard bounds) a
reactive scale up patches the deployment to 10 replicas: a change of -2,
neither plus-minus one nor unchanged. -/
theorem claim_C7_counterexample :
    scale_deployment 12 true = 10 ∧
    scale_deployment 12 true ≠ 12 + 1 ∧
    scale_deployment 12 true ≠ 12 - 1 ∧
    scale_deployment 12 true ≠ 12 := by
  refine ⟨?_, ?_, ?_, ?_⟩ <;> simp [scale_deployment]

/-- **C7, amended.** Whenever the current replica count lies inside the
bounds of the respective scaler (reactive: `[1, 10]`; proactive up: at most
5; proactive down: at least 2), every scaling action moves the count by
exactly plus or minus one, stays inside the bounds, and leaves the count
unchanged at the relevant bound. Outside those bounds the reactive scaler
clamps into the bounds instead. -/
theorem claim_C7_amended (current_replicas : Int) :
    (1 ≤ current_replicas → current_replicas ≤ 10 →
      1 ≤ scale_deployment current_replicas true) ∧
    (1 ≤ current_replicas → current_replicas ≤ 10 →
      scale_deployment current_replicas true ≤ 10) ∧
    (1 ≤ current_replicas → current_replicas ≤ 10 →
      1 ≤ scale_deployment current_replicas false) ∧
    (1 ≤ current_replicas → current_replicas ≤ 10 →
      scale_deployment current_replicas false ≤ 10) ∧
    (1 ≤ current_replicas → current_replicas < 10 →
      scale_deployment current_replicas true = current_replicas + 1) ∧
    (current_replicas = 10 →
      scale_deployment current_replicas true = current_replicas) ∧
    (1 < current_replicas → current_replicas ≤ 10 →
      scale_deployment current_replicas false = current_replicas - 1) ∧
    (current_replicas = 1 →
      scale_deployment current_replicas false = current_replicas) ∧
    (current_replicas ≤ 5 → proactive_scale_up current_replicas ≤ 5) ∧
    (current_replicas < 5 →
      proactive_scale_up current_replicas = current_replicas + 1) ∧
    (5 ≤ current_replicas →
      proactive_scale_up current_replicas = current_replicas) ∧
    (2 ≤ current_replicas → 2 ≤ proactive_scale_down current_replicas) ∧
    (2 < current_replicas →
      proactive_scale_down current_replicas = current_replicas - 1) ∧
    (current_replicas ≤ 2 →
      proactive_scale_down current_replicas = current_replicas) := by
  refine ⟨?_, ?_, ?_, ?_, ?_, ?_, ?_, ?_, ?_, ?_, ?_, ?_, ?_, ?_⟩ <;>
    (intros
     simp only [scale_deployment, proactive_scale_up, proactive_scale_down,
       if_true, if_false, Bool.false_eq_true, ite_true, ite_false]
     omega)

theorem claim_C7_amended_witness :
    scale_deployment 3 true = 3 + 1 ∧ proactive_scale_down 3 = 3 - 1 :=
  ⟨(claim_C7_amended 3).2.2.2.2.1 (by norm_num) (by norm_num),
   (claim_C7_amended 3).2.2.2.2.2.2.2.2.2.2.2.2.1 (by norm_num)⟩

/-! ## `health-check.py`: overall status -/

/-- `class HealthStatus(Enum)` of `monitoring/scripts/health-check.py`. -/
inductive HealthStatus where
  | healthy
  | warning
  | critical
  | unknown
deriving DecidableEq, Repr

/-- `@dataclass class HealthCheckResult` (fields used by
`get_overall_status`). -/
structure HealthCheckResult where
  component : String
  status : HealthStatus
  message : String
deriving DecidableEq, Repr

/-- `HealthChecker.get_overall_status`. -/
def get_overall_status (results : List HealthCheckResult) : HealthStatus :=
  if results = [] then .unknown
  else if (results.map (fun r => r.status)).contains .critical then .critical
  else if (results.map (fun r => r.status)).contains .warning then .warning
  else .healthy

/-- The order HEALTHY < WARNING < CRITICAL used by the claim (UNKNOWN is
outside this order and never returned for a non-empty input). -/
def statusRank : HealthStatus → Nat
  | .healthy => 0
  | .warning => 1
  | .critical => 2
  | .unknown => 3

theorem foldr_max_le (m b : Nat) :
    ∀ (l : List Nat), b ≤ m → (∀ x ∈ l, x ≤ m) → l.foldr max b ≤ m := by
  intro l
  induction l with
  | nil => intro hb _; exact hb
  | cons a rest ih =>
      intro hb h
      rw [List.foldr_cons]
      exact max_le (h a (List.mem_cons_self a rest))
        (ih hb (fun x hx => h x (List.mem_cons_of_mem a hx)))

theorem le_foldr_max (b : Nat) :
    ∀ (l : List Nat), ∀ x ∈ l, x ≤ l.foldr max b := by
  intro l
  induction l with
  | nil => intro x hx; cases hx
  | cons a rest ih =>
      intro x hx
      rw [List.foldr_cons]
      rcases List.mem_cons.mp hx with rfl | h
      · exact le_max_left _ _
      · exact le_trans (ih x h) (le_max_right _ _)

/-- **C10.** The overall status is UNKNOWN iff the result list is empty;
otherwise CRITICAL iff some component is CRITICAL, else WARNING iff some
component is WARNING, else HEALTHY; and, when no component reports
UNKNOWN, it is the maximum of the component statuses under
HEALTHY < WARNING < CRITICAL. -/
theorem claim_C10_overall_status (results : List HealthCheckResult) :
    (get_overall_status results = .unknown ↔ results = []) ∧
    (results ≠ [] →
      ((get_overall_status results = .critical ↔
          ∃ r ∈ results, r.status = .critical) ∧
       ((¬ ∃ r ∈ results, r.status = .critical) →
         (get_overall_status results = .warning ↔
           ∃ r ∈ results, r.status = .warning)) ∧
       ((¬ ∃ r ∈ results, r.status = .critical) →
         (¬ ∃ r ∈ results, r.status = .warning) →
         get_overall_status results = .healthy))) ∧
    (results ≠ [] → (∀ r ∈ results, r.status ≠ .unknown) →
      statusRank (get_overall_status results) =
        (results.map (fun r => statusRank r.status)).foldr max 0) := by
  have hmemc : ∀ (s : HealthStatus),
      ((results.map (fun r => r.status)).contains s = true) ↔
        ∃ r ∈ results, r.status = s := by
    intro s
    rw [List.contains_iff_exists_mem_beq]
    constructor
    · rintro ⟨a, ha, hbeq⟩
      obtain ⟨r, hr, hra⟩ := List.mem_map.mp ha
      exact ⟨r, hr, by rw [hra]; exact (eq_of_beq hbeq).symm⟩
    · rintro ⟨r, hr, hrs⟩
      exact ⟨s, List.mem_map.mpr ⟨r, hr, hrs⟩, by simp⟩
  by_cases hempty : results = []
  · subst hempty
    refine ⟨by simp [get_overall_status], by simp, by simp⟩
  · have hover : get_overall_status results =
        (if (results.map (fun r => r.status)).contains .critical then .critical
         else if (results.map (fun r => r.status)).contains .warning then .warning
         else .healthy) := by
      unfold get_overall_status
      rw [if_neg hempty]
    refine ⟨?_, fun _ => ⟨?_, ?_, ?_⟩, fun _ hnu => ?_⟩
    · rw [hover]
      constructor
      · intro h
        by_cases hc : (results.map (fun r => r.status)).contains .critical = true
        · rw [if_pos hc] at h; cases h
        · rw [if_neg hc] at h
          by_cases hw : (results.map (fun r => r.status)).contains .warning = true
          · rw [if_pos hw] at h; cases h
          · rw [if_neg hw] at h; cases h
      · intro h; exact absurd h hempty
    · rw [hover]
      constructor
      · intro h
        by_cases hc : (results.map (fun r => r.status)).contains .critical
        · exact (hmemc .critical).mp hc
        · rw [if_neg hc] at h
          split at h <;> exact absurd h (by simp)
      · intro h
        rw [if_pos ((hmemc .critical).mpr h)]
    · intro hnc
      have hc : ¬ (results.map (fun r => r.status)).contains .critical = true :=
        fun h => hnc ((hmemc .critical).mp h)
      rw [hover, if_neg hc]
      constructor
      · intro h
        by_cases hw : (results.map (fun r => r.status)).contains .warning
        · exact (hmemc .warning).mp hw
        · rw [if_neg hw] at h
          exact absurd h (by simp)
      · intro h
        rw [if_pos ((hmemc .warning).mpr h)]
    · intro hnc hnw
      have hc : ¬ (results.map (fun r => r.status)).contains .critical = true :=
        fun h => hnc ((hmemc .critical).mp h)
      have hw : ¬ (results.map (fun r => r.status)).contains .warning = true :=
        fun h => hnw ((hmemc .warning).mp h)
      rw [hover, if_neg hc, if_neg hw]
    · rw [hover]
      by_cases hc : (results.map (fun r => r.status)).contains .critical
      · rw [if_pos hc]
        obtain ⟨r, hr, hrc⟩ := (hmemc .critical).mp hc
        have hmem : statusRank HealthStatus.critical ∈
            results.map (fun r => statusRank r.status) :=
          List.mem_map.mpr ⟨r, hr, by rw [hrc]⟩
        have hle : (results.map (fun r => statusRank r.status)).foldr max 0 ≤ 2 := by
          apply foldr_max_le 2 0 _ (by norm_num)
          intro x hx
          obtain ⟨r2, hr2, hr2x⟩ := List.mem_map.mp hx
          rw [← hr2x]
          cases h2 : r2.status <;> simp [statusRank]
          · exact absurd h2 (hnu r2 hr2)
        have hge2 : (2 : Nat) ≤ (results.map (fun r => statusRank r.status)).foldr max 0 :=
          le_foldr_max 0 (results.map (fun r => statusRank r.status)) _ hmem
        show (2 : Nat) = (results.map (fun r => statusRank r.status)).foldr max 0
        omega
      · rw [if_neg hc]
        by_cases hw : (results.map (fun r => r.status)).contains .warning
        · rw [if_pos hw]
          obtain ⟨r, hr, hrw⟩ := (hmemc .warning).mp hw
          have hmem : statusRank HealthStatus.warning ∈
              results.map (fun r => statusRank r.status) :=
            List.mem_map.mpr ⟨r, hr, by rw [hrw]⟩
          have hle : (results.map (fun r => statusRank r.status)).foldr max 0 ≤ 1 := by
            apply foldr_max_le 1 0 _ (by norm_num)
            intro x hx
            obtain ⟨r2, hr2, hr2x⟩ := List.mem_map.mp hx
            rw [← hr2x]
            cases h2 : r2.status <;> simp [statusRank]
            · exact absurd ((hmemc .critical).mpr ⟨r2, hr2, h2⟩) hc
            · exact absurd h2 (hnu r2 hr2)
          have hge2 : (1 : Nat) ≤ (results.map (fun r => statusRank r.status)).foldr max 0 :=
            le_foldr_max 0 (results.map (fun r => statusRank r.status)) _ hmem
          show (1 : Nat) = (results.map (fun r => statusRank r.status)).foldr max 0
          omega
        · rw [if_neg hw]
          have hle : (results.map (fun r => statusRank r.status)).foldr max 0 ≤ 0 := by
            apply foldr_max_le 0 0 _ (by norm_num)
            intro x hx
            obtain ⟨r2, hr2, hr2x⟩ := List.mem_map.mp hx
            rw [← hr2x]
            cases h2 : r2.status <;> simp [statusRank]
            · exact absurd ((hmemc .warning).mpr ⟨r2, hr2, h2⟩) hw
            · exact absurd ((hmemc .critical).mpr ⟨r2, hr2, h2⟩) hc
            · exact absurd h2 (hnu r2 hr2)
          show (0 : Nat) = (results.map (fun r => statusRank r.status)).foldr max 0
          omega

def healthyResult : HealthCheckResult :=
  { component := "redis", status := .healthy, message := "ok" }

def criticalResult : HealthCheckResult :=
  { component := "postgres", status := .critical, message := "down" }

theorem claim_C10_overall_status_witness :
    get_overall_status [healthyResult, criticalResult] = .critical :=
  (((claim_C10_overall_status [healthyResult, criticalResult]).2.1
      (by simp)).1).mpr
    ⟨criticalResult, by simp, rfl⟩

/-! ## `SelfHealingSystem.execute_recovery_action`

The eleven per-action helper coroutines (`restart_pod`, `scale_deployment`,
…) talk to Kubernetes, Redis or HTTP; they are abstracted as an oracle that
returns the `(success, message)` pair of the helper, or an error string for
a raised exception. The `else` branch of the dispatch (reached only by
`CHAOS_TEST`) is concrete. -/

def dispatchRecoveryAction
    (oracle : RecoveryAction → Except String (Bool × String)) :
    RecoveryAction → Except String (Bool × String)
  | .chaos_test =>
      .ok (false, "지원되지 않는 액션: " ++ RecoveryAction.value .chaos_test)
  | a => oracle a

/-- `SelfHealingSystem.execute_recovery_action` with explicit start and end
instants (`time.time()` readings): builds a `RecoveryResult` on both the
normal path and the exception path. -/
def execute_recovery_action
    (oracle : RecoveryAction → Except String (Bool × String))
    (issue : HealthIssue) (action : RecoveryAction) (tStart tEnd : ℚ) :
    RecoveryResult :=
  match dispatchRecoveryAction oracle action with
  | .ok (success, message) =>
      { action := action, target := issue.component, success := success,
        duration := tEnd - tStart, message := message, timestamp := tEnd }
  | .error e =>
      { action := action, target := issue.component, success := false,
        duration := tEnd - tStart,
        message := "복구 액션 실행 중 오류: " ++ e, timestamp := tEnd }

/-- **C9.** Executing a recovery action always yields a `RecoveryResult`:
its target is the component of the issue, its duration is non-negative
(the end instant follows the start instant), and on an internal error the
result has `success = false` and a non-empty message. -/
theorem claim_C9_execute_recovery_total
    (oracle : RecoveryAction → Except String (Bool × String))
    (issue : HealthIssue) (action : RecoveryAction) (tStart tEnd : ℚ)
    (ht : tStart ≤ tEnd) :
    (execute_recovery_action oracle issue action tStart tEnd).target =
      issue.component ∧
    0 ≤ (execute_recovery_action oracle issue action tStart tEnd).duration ∧
    (∀ e, dispatchRecoveryAction oracle action = .error e →
      (execute_recovery_action oracle issue action tStart tEnd).success = false ∧
      (execute_recovery_action oracle issue action tStart tEnd).message ≠ "") := by
  unfold execute_recovery_action
  cases hd : dispatchRecoveryAction oracle action with
  | ok p =>
      obtain ⟨s, m⟩ := p
      refine ⟨rfl, by dsimp only; linarith, ?_⟩
      intro e he
      cases he
  | error e =>
      refine ⟨rfl, by dsimp only; linarith, ?_⟩
      intro e2 _
      refine ⟨rfl, ?_⟩
      intro hmsg
      have hdata := congrArg String.data hmsg
      rw [String.data_append] at hdata
      have : ("복구 액션 실행 중 오류: ").data = [] :=
        (List.append_eq_nil.mp hdata).1
      simp at this

theorem claim_C9_execute_recovery_total_witness :
    (execute_recovery_action (fun _ => .error ("connection refused"))
        emergencyIssue .restart_pod 0 1).success = false ∧
    (execute_recovery_action (fun _ => .error ("connection refused"))
        emergencyIssue .restart_pod 0 1).message ≠ "" :=
  (claim_C9_execute_recovery_total (fun _ => .error ("connection refused"))
      emergencyIssue .restart_pod 0 1 (by norm_num)).2.2
    ("connection refused") rfl

/-! ## `backend/app/main.py`: `calculate_data_quality` -/

/-- A raw sensor reading: the `data` dict of channel name to numeric
value. -/
abbrev Reading := List (String × ℚ)

/-- Python `field in data`. -/
def readingHas (data : Reading) (f : String) : Bool :=
  data.any (fun p => p.1 == f)

/-- Python `data.get(field, dflt)`. -/
def readingGetD (data : Reading) (f : String) (dflt : ℚ) : ℚ :=
  match data.find? (fun p => p.1 == f) with
  | some p => p.2
  | none => dflt

/-- The `required_fields` list of `calculate_data_quality`. -/
def requiredFields : List String :=
  ["temperature", "humidity", "pressure", "acceleration"]

/-- `calculate_data_quality` of `backend/app/main.py`: 0.25 off per missing
required field, 0.1 off when the (defaulted) temperature or humidity value
is out of bounds, floored at 0. -/
def calculate_data_quality (data : Reading) : ℚ :=
  let missing_fields : ℚ :=
    ((requiredFields.filter (fun f => !(readingHas data f))).length : ℚ)
  let q1 := 1 - missing_fields * (1/4)
  let q2 :=
    if readingGetD data ("temperature") 0 < -40 ∨ 85 < readingGetD data ("temperature") 0
    then q1 - 1/10 else q1
  let q3 :=
    if readingGetD data ("humidity") 0 < 0 ∨ 100 < readingGetD data ("humidity") 0
    then q2 - 1/10 else q2
  max 0 q3

/-- The channel bound table named by claim C6 (the validation bounds of
`normalize_temperature` / `normalize_humidity` / `normalize_pressure` /
`normalize_acceleration`). -/
def claimChannelBounds : List (String × ℚ × ℚ) :=
  [("temperature", -40, 85), ("humidity", 0, 100),
   ("pressure", 800, 1200), ("acceleration", 0, 5)]

/-- The quality score as claim C6 words it: 0.25 per missing required
channel and 0.1 per present channel whose value lies outside its bound,
counted over all four channels. -/
def claim_C6_quality (data : Reading) : ℚ :=
  let missing_fields : ℚ :=
    ((requiredFields.filter (fun f => !(readingHas data f))).length : ℚ)
  let clipped : ℚ :=
    ((claimChannelBounds.filter (fun b =>
        readingHas data b.1 &&
          (decide (readingGetD data b.1 0 < b.2.1) ||
            decide (b.2.2 < readingGetD data b.1 0)))).length : ℚ)
  max 0 (1 - missing_fields * (1/4) - clipped * (1/10))

/-- A reading with every channel present and the pressure far out of its
bound `[800, 1200]`. -/
def pressureOutReading : Reading :=
  [("temperature", 25), ("humidity", 50), ("pressure", 2000), ("acceleration", 1)]

/-- **C6, counterexample.** An out-of-bound pressure value does not lower
the score: the code only checks the temperature and humidity bounds, so
the claimed formula (0.1 per clipped channel among all four) disagrees. -/
theorem claim_C6_counterexample :
    calculate_data_quality pressureOutReading = 1 ∧
    claim_C6_quality pressureOutReading = 9/10 ∧
    calculate_data_quality pressureOutReading ≠ claim_C6_quality pressureOutReading := by
  have ht : readingGetD pressureOutReading ("temperature") 0 = 25 := rfl
  have hh : readingGetD pressureOutReading ("humidity") 0 = 50 := rfl
  have hm : (requiredFields.filter
      (fun f => !(readingHas pressureOutReading f))).length = 0 := rfl
  have hcl : ((claimChannelBounds.filter (fun b =>
      readingHas pressureOutReading b.1 &&
        (decide (readingGetD pressureOutReading b.1 0 < b.2.1) ||
          decide (b.2.2 < readingGetD pressureOutReading b.1 0)))).length) = 1 := rfl
  have h1 : calculate_data_quality pressureOutReading = 1 := by
    simp only [calculate_data_quality, ht, hh, hm]
    norm_num
  have h2 : claim_C6_quality pressureOutReading = 9/10 := by
    simp only [claim_C6_quality, hcl, hm]
    norm_num
  exact ⟨h1, h2, by rw [h1, h2]; norm_num⟩

/-- The bound table restricted to the two channels the code checks. -/
def tempHumBounds : List (String × ℚ × ℚ) :=
  [("temperature", -40, 85), ("humidity", 0, 100)]

/-- **C6, amended.** The data-quality score equals
`max(0, 1 - 0.25*missing - 0.1*out)` where `out` counts only the
temperature and humidity channels whose defaulted value lies outside its
bound — pressure and acceleration bounds are never consulted — and the
score always lies in `[0, 1]`. -/
theorem claim_C6_amended (data : Reading) :
    calculate_data_quality data =
      max 0 (1 -
        ((requiredFields.filter (fun f => !(readingHas data f))).length : ℚ) * (1/4) -
        ((tempHumBounds.filter (fun b =>
            decide (readingGetD data b.1 0 < b.2.1) ||
              decide (b.2.2 < readingGetD data b.1 0))).length : ℚ) * (1/10)) ∧
    0 ≤ calculate_data_quality data ∧ calculate_data_quality data ≤ 1 := by
  have hm : (0 : ℚ) ≤
      ((requiredFields.filter (fun f => !(readingHas data f))).length : ℚ) :=
    Nat.cast_nonneg _
  refine ⟨?_, ?_, ?_⟩
  · by_cases hct : readingGetD data ("temperature") 0 < -40 ∨
        85 < readingGetD data ("temperature") 0 <;>
      by_cases hch : readingGetD data ("humidity") 0 < 0 ∨
          100 < readingGetD data ("humidity") 0 <;>
      · simp only [calculate_data_quality, tempHumBounds, List.filter_cons,
          List.filter_nil, Bool.or_eq_true, decide_eq_true_eq, if_pos, if_neg,
          hct, hch, if_true, if_false, ite_true, ite_false]
        norm_num [hct, hch]
        try ring_nf
  · unfold calculate_data_quality
    exact le_max_left 0 _
  · unfold calculate_data_quality
    split_ifs <;>
      · apply max_le (by norm_num)
        nlinarith

/-! ## `anomaly_detector.py`: deduplication and ranking -/

/-- `class AnomalyType(Enum)`. -/
inductive AnomalyType where
  | sensor_malfunction
  | temperature_anomaly
  | pressure_anomaly
  | battery_degradation
  | communication_issue
  | data_quality_drop
  | predictive_maintenance
  | security_breach
deriving DecidableEq, Repr

/-- The `.value` strings of `AnomalyType`. -/
def AnomalyType.value : AnomalyType → String
  | .sensor_malfunction => "sensor_malfunction"
  | .temperature_anomaly => "temperature_anomaly"
  | .pressure_anomaly => "pressure_anomaly"
  | .battery_degradation => "battery_degradation"
  | .communication_issue => "communication_issue"
  | .data_quality_drop => "data_quality_drop"
  | .predictive_maintenance => "predictive_maintenance"
  | .security_breach => "security_breach"

/-- `class SeverityLevel(Enum)`: LOW=1 … EMERGENCY=5. -/
inductive SeverityLevel where
  | low
  | medium
  | high
  | critical
  | emergency
deriving DecidableEq, Repr

/-- The numeric `.value` of `SeverityLevel`. -/
def SeverityLevel.value : SeverityLevel → Nat
  | .low => 1
  | .medium => 2
  | .high => 3
  | .critical => 4
  | .emergency => 5

/-- `@dataclass class AnomalyResult` (fields used by the deduplication and
ranking stage; the remaining string and optional fields carry no logic
there). -/
structure AnomalyResult where
  device_id : String
  anomaly_type : AnomalyType
  severity : SeverityLevel
  confidence_score : ℚ
  predicted_value : ℚ
  actual_value : ℚ
  threshold : ℚ
  timestamp : Int
  description : String
  recommendation : String
  model_used : String
deriving DecidableEq, Repr

/-- `key = f"{result.device_id}_{result.anomaly_type.value}"`. -/
def anomalyKey (r : AnomalyResult) : String :=
  r.device_id ++ "_" ++ r.anomaly_type.value

/-- Generic string-keyed dict as an association list, mirroring Python
dict semantics: overwrite in place, append new keys at the end. -/
def dictLookup {α : Type} : List (String × α) → String → Option α
  | [], _ => none
  | (k2, v) :: rest, k => if k2 = k then some v else dictLookup rest k

def dictSet {α : Type} : List (String × α) → String → α → List (String × α)
  | [], k, v => [(k, v)]
  | (k2, v2) :: rest, k, v =>
      if k2 = k then (k, v) :: rest else (k2, v2) :: dictSet rest k v

/-- One iteration of the `for result in results` loop of
`deduplicate_and_prioritize`: keep the incumbent unless the new result has
strictly greater severity. -/
def dedupStep (m : List (String × AnomalyResult)) (r : AnomalyResult) :
    List (String × AnomalyResult) :=
  match dictLookup m (anomalyKey r) with
  | none => m ++ [(anomalyKey r, r)]
  | some cur =>
      if cur.severity.value < r.severity.value then dictSet m (anomalyKey r) r
      else m

/-- The comparison behind
`sorted(unique_results.values(), key=lambda x: (x.severity.value,
x.confidence_score), reverse=True)`: a stable descending sort on the pair,
i.e. `a` may precede `b` iff the key pair of `b` is lexicographically at
most that of `a`. -/
def rankLe (a b : AnomalyResult) : Bool :=
  decide (b.severity.value < a.severity.value) ||
    (decide (b.severity.value = a.severity.value) &&
      decide (b.confidence_score ≤ a.confidence_score))

/-- `AdvancedAnomalyDetector.deduplicate_and_prioritize`. -/
def deduplicate_and_prioritize (results : List AnomalyResult) :
    List AnomalyResult :=
  ((results.foldl dedupStep []).map (fun p => p.2)).mergeSort rankLe

/-- The per-key fold the dict performs: first element wins ties, a strictly
greater severity replaces. -/
def keepStep (acc : Option AnomalyResult) (r : AnomalyResult) :
    Option AnomalyResult :=
  match acc with
  | none => some r
  | some cur =>
      if cur.severity.value < r.severity.value then some r else some cur

theorem dictLookup_dictSet_self {α : Type} (m : List (String × α)) (k : String)
    (v : α) : dictLookup (dictSet m k v) k = some v := by
  induction m with
  | nil => simp [dictSet, dictLookup]
  | cons p rest ih =>
      obtain ⟨k2, v2⟩ := p
      by_cases h : k2 = k
      · simp [dictSet, h, dictLookup]
      · simp [dictSet, h, dictLookup, ih]

theorem dictLookup_dictSet_ne {α : Type} (m : List (String × α)) (k k2 : String)
    (v : α) (h : k2 ≠ k) : dictLookup (dictSet m k v) k2 = dictLookup m k2 := by
  induction m with
  | nil => simp [dictSet, dictLookup, if_neg (Ne.symm h)]
  | cons p rest ih =>
      obtain ⟨k3, v3⟩ := p
      by_cases h3 : k3 = k
      · subst h3
        simp [dictSet, dictLookup, if_neg (Ne.symm h)]
      · simp [dictSet, h3, dictLookup, ih]

theorem dictLookup_append_single {α : Type} (m : List (String × α))
    (k k2 : String) (v : α) :
    dictLookup (m ++ [(k, v)]) k2 =
      match dictLookup m k2 with
      | some w => some w
      | none => if k = k2 then some v else none := by
  induction m with
  | nil => simp [dictLookup]
  | cons p rest ih =>
      obtain ⟨k3, v3⟩ := p
      by_cases h3 : k3 = k2
      · simp [dictLookup, h3]
      · simp [dictLookup, h3, ih]

theorem dictLookup_eq_none_iff {α : Type} :
    ∀ (m : List (String × α)) (k : String),
      dictLookup m k = none ↔ k ∉ m.map (fun p => p.1) := by
  intro m
  induction m with
  | nil => intro k; simp [dictLookup]
  | cons p rest ih =>
      intro k
      obtain ⟨k2, v⟩ := p
      by_cases h : k2 = k
      · simp [dictLookup, h]
      · simp [dictLookup, h, ih k, Ne.symm h]

theorem dictSet_keys_of_mem {α : Type} :
    ∀ (m : List (String × α)) (k : String) (v w : α),
      dictLookup m k = some w →
      (dictSet m k v).map (fun p => p.1) = m.map (fun p => p.1) := by
  intro m
  induction m with
  | nil => intro k v w h; cases h
  | cons p rest ih =>
      intro k v w h
      obtain ⟨k2, v2⟩ := p
      by_cases h2 : k2 = k
      · simp [dictSet, h2]
      · rw [dictLookup, if_neg h2] at h
        simp [dictSet, h2, ih k v w h]

theorem dictLookup_of_mem_nodup {α : Type} :
    ∀ (m : List (String × α)), (m.map (fun p => p.1)).Nodup →
      ∀ p ∈ m, dictLookup m p.1 = some p.2 := by
  intro m
  induction m with
  | nil => intro _ p hp; cases hp
  | cons q rest ih =>
      intro hnd p hp
      obtain ⟨k2, v2⟩ := q
      rw [List.map_cons] at hnd
      rcases List.mem_cons.mp hp with rfl | hmem
      · simp [dictLookup]
      · have hk : k2 ≠ p.1 := by
          intro h
          have : p.1 ∈ rest.map (fun p => p.1) := List.mem_map.mpr ⟨p, hmem, rfl⟩
          rw [← h] at this
          exact (List.nodup_cons.mp hnd).1 this
        rw [dictLookup, if_neg hk]
        exact ih (List.nodup_cons.mp hnd).2 p hmem

/-- Keys recorded in the dedup dict are the anomaly keys of their values. -/
def entriesWellKeyed (m : List (String × AnomalyResult)) : Prop :=
  ∀ p ∈ m, p.1 = anomalyKey p.2

theorem dictSet_mem {α : Type} :
    ∀ (m : List (String × α)) (k : String) (v : α) (p : String × α),
      p ∈ dictSet m k v → p ∈ m ∨ p = (k, v) := by
  intro m
  induction m with
  | nil => intro k v p hp; right; simpa [dictSet] using hp
  | cons q rest ih =>
      intro k v p hp
      obtain ⟨k2, v2⟩ := q
      by_cases h2 : k2 = k
      · rw [dictSet, if_pos h2] at hp
        rcases List.mem_cons.mp hp with rfl | hmem
        · right; rfl
        · left; exact List.mem_cons_of_mem _ hmem
      · rw [dictSet, if_neg h2] at hp
        rcases List.mem_cons.mp hp with rfl | hmem
        · left; exact List.mem_cons_self _ _
        · rcases ih k v p hmem with h | h
          · left; exact List.mem_cons_of_mem _ h
          · right; exact h

theorem dedupStep_eq_append (m : List (String × AnomalyResult))
    (r : AnomalyResult) (h : dictLookup m (anomalyKey r) = none) :
    dedupStep m r = m ++ [(anomalyKey r, r)] := by
  unfold dedupStep; rw [h]

theorem dedupStep_eq_set (m : List (String × AnomalyResult))
    (r cur : AnomalyResult) (h : dictLookup m (anomalyKey r) = some cur)
    (hlt : cur.severity.value < r.severity.value) :
    dedupStep m r = dictSet m (anomalyKey r) r := by
  unfold dedupStep; rw [h]; simp [hlt]

theorem dedupStep_eq_keep (m : List (String × AnomalyResult))
    (r cur : AnomalyResult) (h : dictLookup m (anomalyKey r) = some cur)
    (hlt : ¬ cur.severity.value < r.severity.value) :
    dedupStep m r = m := by
  unfold dedupStep; rw [h]; simp [hlt]

theorem dedup_fold_wellKeyed :
    ∀ (l : List AnomalyResult) (m : List (String × AnomalyResult)),
      entriesWellKeyed m → entriesWellKeyed (l.foldl dedupStep m) := by
  intro l
  induction l with
  | nil => intro m h; exact h
  | cons r rest ih =>
      intro m h
      rw [List.foldl_cons]
      apply ih
      cases hlk : dictLookup m (anomalyKey r) with
      | none =>
          rw [dedupStep_eq_append m r hlk]
          intro p hp
          rcases List.mem_append.mp hp with h1 | h2
          · exact h p h1
          · rw [List.mem_singleton.mp h2]
      | some cur =>
          by_cases hlt : cur.severity.value < r.severity.value
          · rw [dedupStep_eq_set m r cur hlk hlt]
            intro p hp
            rcases dictSet_mem m (anomalyKey r) r p hp with h1 | h1
            · exact h p h1
            · rw [h1]
          · rw [dedupStep_eq_keep m r cur hlk hlt]
            exact h

theorem dedup_fold_keys_nodup :
    ∀ (l : List AnomalyResult) (m : List (String × AnomalyResult)),
      (m.map (fun p => p.1)).Nodup →
      ((l.foldl dedupStep m).map (fun p => p.1)).Nodup := by
  intro l
  induction l with
  | nil => intro m h; exact h
  | cons r rest ih =>
      intro m h
      rw [List.foldl_cons]
      apply ih
      cases hlk : dictLookup m (anomalyKey r) with
      | none =>
          rw [dedupStep_eq_append m r hlk]
          rw [List.map_append, List.nodup_append]
          refine ⟨h, List.nodup_singleton _, ?_⟩
          intro a ha hb
          rw [List.map_singleton, List.mem_singleton] at hb
          subst hb
          exact (dictLookup_eq_none_iff m (anomalyKey r)).mp hlk ha
      | some cur =>
          by_cases hlt : cur.severity.value < r.severity.value
          · rw [dedupStep_eq_set m r cur hlk hlt]
            rw [dictSet_keys_of_mem m (anomalyKey r) r cur hlk]
            exact h
          · rw [dedupStep_eq_keep m r cur hlk hlt]
            exact h

/-- The per-key view of the dedup dict: its entry for `k` is the
`keepStep` fold over the same-key results, in input order. -/
theorem dedup_fold_lookup (k : String) :
    ∀ (l : List AnomalyResult) (m : List (String × AnomalyResult)),
      dictLookup (l.foldl dedupStep m) k =
        (l.filter (fun r => anomalyKey r = k)).foldl keepStep (dictLookup m k) := by
  intro l
  induction l with
  | nil => intro m; rfl
  | cons r rest ih =>
      intro m
      rw [List.foldl_cons, ih (dedupStep m r)]
      by_cases hk : anomalyKey r = k
      · rw [List.filter_cons, if_pos (by simpa using hk), List.foldl_cons]
        congr 1
        cases hlk : dictLookup m (anomalyKey r) with
        | none =>
            rw [dedupStep_eq_append m r hlk]
            rw [dictLookup_append_single]
            rw [hk] at hlk
            rw [hlk, hk]
            simp [keepStep]
        | some cur =>
            by_cases hlt : cur.severity.value < r.severity.value
            · rw [dedupStep_eq_set m r cur hlk hlt, hk, dictLookup_dictSet_self]
              rw [hk] at hlk
              rw [hlk]
              simp [keepStep, hlt]
            · rw [dedupStep_eq_keep m r cur hlk hlt]
              rw [hk] at hlk
              rw [hlk]
              simp [keepStep, hlt]
      · rw [List.filter_cons, if_neg (by simpa using hk)]
        congr 1
        cases hlk : dictLookup m (anomalyKey r) with
        | none =>
            rw [dedupStep_eq_append m r hlk]
            rw [dictLookup_append_single]
            cases h2 : dictLookup m k with
            | none => rw [if_neg hk]
            | some w => rfl
        | some cur =>
            by_cases hlt : cur.severity.value < r.severity.value
            · rw [dedupStep_eq_set m r cur hlk hlt]
              exact dictLookup_dictSet_ne m (anomalyKey r) k r (Ne.symm hk)
            · rw [dedupStep_eq_keep m r cur hlk hlt]

theorem keepFold_isSome :
    ∀ (l : List AnomalyResult) (cur : AnomalyResult),
      ∃ r, l.foldl keepStep (some cur) = some r := by
  intro l
  induction l with
  | nil => intro cur; exact ⟨cur, rfl⟩
  | cons x rest ih =>
      intro cur
      rw [List.foldl_cons]
      by_cases hlt : cur.severity.value < x.severity.value
      · rw [show keepStep (some cur) x = some x from by simp [keepStep, hlt]]
        exact ih x
      · rw [show keepStep (some cur) x = some cur from by simp [keepStep, hlt]]
        exact ih cur

theorem keepFold_none_eq_none_iff (l : List AnomalyResult) :
    l.foldl keepStep none = none ↔ l = [] := by
  cases l with
  | nil => simp
  | cons x rest =>
      rw [List.foldl_cons]
      show rest.foldl keepStep (some x) = none ↔ x :: rest = []
      obtain ⟨r, hr⟩ := keepFold_isSome rest x
      rw [hr]
      simp

theorem keepFold_some_spec :
    ∀ (l : List AnomalyResult) (cur r : AnomalyResult),
      l.foldl keepStep (some cur) = some r →
      (r = cur ∧ ∀ x ∈ l, x.severity.value ≤ cur.severity.value) ∨
      (∃ l1 l2, l = l1 ++ r :: l2 ∧ cur.severity.value < r.severity.value ∧
        (∀ x ∈ l1, x.severity.value < r.severity.value) ∧
        (∀ x ∈ l2, x.severity.value ≤ r.severity.value)) := by
  intro l
  induction l with
  | nil =>
      intro cur r h
      left
      refine ⟨by injection h with h2; exact h2.symm, ?_⟩
      intro x hx; cases hx
  | cons x rest ih =>
      intro cur r h
      rw [List.foldl_cons] at h
      by_cases hlt : cur.severity.value < x.severity.value
      · rw [show keepStep (some cur) x = some x from by simp [keepStep, hlt]] at h
        rcases ih x r h with ⟨hrx, hall⟩ | ⟨l1, l2, heq, hcr, hl1, hl2⟩
        · right
          refine ⟨[], rest, ?_, ?_, ?_, ?_⟩
          · rw [hrx]; rfl
          · rw [hrx]; exact hlt
          · intro y hy; cases hy
          · intro y hy; rw [hrx]; exact hall y hy
        · right
          refine ⟨x :: l1, l2, by rw [heq, List.cons_append], lt_trans hlt hcr, ?_, hl2⟩
          intro y hy
          rcases List.mem_cons.mp hy with hy1 | hy2
          · rw [hy1]; exact hcr
          · exact hl1 y hy2
      · rw [show keepStep (some cur) x = some cur from by simp [keepStep, hlt]] at h
        push_neg at hlt
        rcases ih cur r h with ⟨hrc, hall⟩ | ⟨l1, l2, heq, hcr, hl1, hl2⟩
        · left
          refine ⟨hrc, ?_⟩
          intro y hy
          rcases List.mem_cons.mp hy with hy1 | hy2
          · rw [hy1]; exact hlt
          · exact hall y hy2
        · right
          refine ⟨x :: l1, l2, by rw [heq, List.cons_append], hcr, ?_, hl2⟩
          intro y hy
          rcases List.mem_cons.mp hy with hy1 | hy2
          · rw [hy1]; exact lt_of_le_of_lt hlt hcr
          · exact hl1 y hy2

theorem keepFold_none_spec (l : List AnomalyResult) (r : AnomalyResult)
    (h : l.foldl keepStep none = some r) :
    ∃ l1 l2, l = l1 ++ r :: l2 ∧
      (∀ x ∈ l1, x.severity.value < r.severity.value) ∧
      (∀ x ∈ l, x.severity.value ≤ r.severity.value) := by
  cases l with
  | nil => cases h
  | cons x rest =>
      rw [List.foldl_cons] at h
      have h2 : rest.foldl keepStep (some x) = some r := h
      rcases keepFold_some_spec rest x r h2 with ⟨hrx, hall⟩ | ⟨l1, l2, heq, hcr, hl1, hl2⟩
      · refine ⟨[], rest, ?_, ?_, ?_⟩
        · rw [hrx]; rfl
        · intro y hy; cases hy
        · intro y hy
          rcases List.mem_cons.mp hy with hy1 | hy2
          · rw [hy1, hrx]
          · rw [hrx]; exact hall y hy2
      · refine ⟨x :: l1, l2, by rw [heq, List.cons_append], ?_, ?_⟩
        · intro y hy
          rcases List.mem_cons.mp hy with hy1 | hy2
          · rw [hy1]; exact hcr
          · exact hl1 y hy2
        · intro y hy
          rcases List.mem_cons.mp hy with hy1 | hy2
          · rw [hy1]; exact le_of_lt hcr
          · rw [heq] at hy2
            rcases List.mem_append.mp hy2 with hy3 | hy3
            · exact le_of_lt (hl1 y hy3)
            · rcases List.mem_cons.mp hy3 with hy4 | hy4
              · rw [hy4]
              · exact hl2 y hy4

theorem count_values_by_key :
    ∀ (m : List (String × AnomalyResult)), entriesWellKeyed m →
      (m.map (fun p => p.1)).Nodup →
      ∀ k, ((m.map (fun p => p.2)).countP (fun x => anomalyKey x = k)) =
        if dictLookup m k = none then 0 else 1 := by
  intro m
  induction m with
  | nil => intro _ _ k; simp [dictLookup]
  | cons p rest ih =>
      intro hwk hnd k
      obtain ⟨k2, v⟩ := p
      have hk2 : k2 = anomalyKey v := hwk (k2, v) (List.mem_cons_self _ _)
      rw [List.map_cons] at hnd
      have hwk2 : entriesWellKeyed rest :=
        fun q hq => hwk q (List.mem_cons_of_mem _ hq)
      have hnd2 := (List.nodup_cons.mp hnd).2
      simp only [List.map_cons, List.countP_cons]
      by_cases h : k2 = k
      · have hknotin : k ∉ rest.map (fun p => p.1) := by
          rw [← h]
          exact (List.nodup_cons.mp hnd).1
        have hrest : dictLookup rest k = none :=
          (dictLookup_eq_none_iff rest k).mpr hknotin
        rw [ih hwk2 hnd2 k, hrest]
        have hpred : (anomalyKey v = k) := by rw [← hk2, h]
        rw [dictLookup, if_pos h]
        simp [hpred]
      · have hpred : ¬ (anomalyKey v = k) := by rw [← hk2]; exact h
        rw [ih hwk2 hnd2 k]
        rw [dictLookup, if_neg h]
        simp [hpred]

/-- **C4, amended.** Deduplication collapses all results sharing
`(device_id, anomaly_type)` into exactly one result; the kept result has the
maximal severity of its group, and among the results attaining that maximal
severity it is the earliest in input order — confidence is never consulted
by the deduplication. -/
theorem claim_C4_amended (results : List AnomalyResult) :
    (∀ k, (deduplicate_and_prioritize results).countP
        (fun x => anomalyKey x = k) =
      if results.countP (fun x => anomalyKey x = k) = 0 then 0 else 1) ∧
    (∀ r ∈ deduplicate_and_prioritize results,
      (∃ l1 l2, results.filter (fun x => anomalyKey x = anomalyKey r) =
          l1 ++ r :: l2 ∧
        (∀ x ∈ l1, x.severity.value < r.severity.value)) ∧
      (∀ x ∈ results, anomalyKey x = anomalyKey r →
        x.severity.value ≤ r.severity.value)) := by
  have hwk : entriesWellKeyed (results.foldl dedupStep []) :=
    dedup_fold_wellKeyed results [] (fun p hp => absurd hp (List.not_mem_nil p))
  have hnd : ((results.foldl dedupStep []).map (fun p => p.1)).Nodup :=
    dedup_fold_keys_nodup results [] List.nodup_nil
  constructor
  · intro k
    unfold deduplicate_and_prioritize
    rw [List.Perm.countP_eq _ (List.mergeSort_perm _ _)]
    rw [count_values_by_key _ hwk hnd k]
    rw [dedup_fold_lookup k results []]
    have hbase : dictLookup ([] : List (String × AnomalyResult)) k = none := rfl
    rw [hbase]
    rw [List.countP_eq_length_filter]
    by_cases hf : results.filter (fun x => anomalyKey x = k) = []
    · rw [hf]
      simp
    · rw [if_neg (fun h => hf ((keepFold_none_eq_none_iff _).mp h)),
          if_neg (fun h => hf (List.length_eq_zero.mp h))]
  · intro r hr
    unfold deduplicate_and_prioritize at hr
    rw [List.mem_mergeSort] at hr
    obtain ⟨p, hp, hpr⟩ := List.mem_map.mp hr
    have hkey : p.1 = anomalyKey r := by rw [← hpr]; exact hwk p hp
    have hlk : dictLookup (results.foldl dedupStep []) p.1 = some p.2 :=
      dictLookup_of_mem_nodup _ hnd p hp
    rw [hkey, hpr] at hlk
    rw [dedup_fold_lookup (anomalyKey r) results []] at hlk
    obtain ⟨l1, l2, heq, hl1, hall⟩ := keepFold_none_spec _ r hlk
    refine ⟨⟨l1, l2, heq, hl1⟩, ?_⟩
    intro x hx hkx
    have hmemf : x ∈ results.filter (fun y => anomalyKey y = anomalyKey r) :=
      List.mem_filter.mpr ⟨hx, by simpa using hkx⟩
    exact hall x hmemf

/-- A statistical detection of the temperature anomaly of device TPMS-001,
low confidence, reported first in the tick. -/
def anomalyLowConf : AnomalyResult :=
  { device_id := "TPMS-001", anomaly_type := .temperature_anomaly,
    severity := .high, confidence_score := 1/10, predicted_value := 70,
    actual_value := 95, threshold := 80, timestamp := 0,
    description := "stat", recommendation := "inspect",
    model_used := "isolation_forest" }

/-- The same anomaly scored later in the tick with the same severity but far
higher confidence. -/
def anomalyHighConf : AnomalyResult :=
  { anomalyLowConf with
    confidence_score := 9/10
    timestamp := 1
    model_used := "lstm_autoencoder" }

/-- **C4, counterexample.** On a severity tie the deduplication keeps the
first result seen, not the one with higher confidence: feeding the
low-confidence result first, the kept result has confidence 0.1 although a
0.9-confidence result for the same key exists. -/
theorem claim_C4_counterexample :
    deduplicate_and_prioritize [anomalyLowConf, anomalyHighConf] =
      [anomalyLowConf] ∧
    anomalyKey anomalyLowConf = anomalyKey anomalyHighConf ∧
    anomalyLowConf.severity = anomalyHighConf.severity ∧
    anomalyLowConf.confidence_score < anomalyHighConf.confidence_score := by
  have h1 : [anomalyLowConf, anomalyHighConf].foldl dedupStep [] =
      [(anomalyKey anomalyLowConf, anomalyLowConf)] := rfl
  refine ⟨?_, rfl, rfl, by norm_num [anomalyLowConf, anomalyHighConf]⟩
  unfold deduplicate_and_prioritize
  rw [h1, List.map_cons, List.map_nil]
  exact List.mergeSort_singleton anomalyLowConf

theorem claim_C4_amended_witness :
    (deduplicate_and_prioritize [anomalyLowConf, anomalyHighConf]).countP
      (fun x => anomalyKey x = "TPMS-001_temperature_anomaly") = 1 := by
  rw [(claim_C4_amended [anomalyLowConf, anomalyHighConf]).1
    ("TPMS-001_temperature_anomaly")]
  rfl

theorem rankLe_total_true (a b : AnomalyResult) :
    (rankLe a b || rankLe b a) = true := by
  simp only [rankLe, Bool.or_eq_true, Bool.and_eq_true, decide_eq_true_eq]
  rcases Nat.lt_trichotomy b.severity.value a.severity.value with h | h | h
  · exact Or.inl (Or.inl h)
  · rcases le_total b.confidence_score a.confidence_score with h2 | h2
    · exact Or.inl (Or.inr ⟨h, h2⟩)
    · exact Or.inr (Or.inr ⟨h.symm, h2⟩)
  · exact Or.inr (Or.inl h)

theorem rankLe_trans_true (a b c : AnomalyResult) (h1 : rankLe a b = true)
    (h2 : rankLe b c = true) : rankLe a c = true := by
  simp only [rankLe, Bool.or_eq_true, Bool.and_eq_true,
    decide_eq_true_eq] at h1 h2 ⊢
  rcases h1 with h1 | ⟨h1e, h1c⟩ <;> rcases h2 with h2 | ⟨h2e, h2c⟩
  · exact Or.inl (lt_trans h2 h1)
  · exact Or.inl (by omega)
  · exact Or.inl (by omega)
  · exact Or.inr ⟨by omega, le_trans h2c h1c⟩

/-- **C5, amended.** The output of deduplication-and-prioritization is
sorted by severity descending, then confidence descending; there is no
`observed_at` or device-id tie-break — ties on the pair keep the
first-encounter order of the deduplication dict, so the ranking is a
deterministic function of the input list (but not of its multiset). -/
theorem claim_C5_amended (results : List AnomalyResult) :
    List.Pairwise (fun a b =>
        b.severity.value < a.severity.value ∨
        (b.severity.value = a.severity.value ∧
          b.confidence_score ≤ a.confidence_score))
      (deduplicate_and_prioritize results) := by
  unfold deduplicate_and_prioritize
  have hp := @List.sorted_mergeSort AnomalyResult rankLe
    (fun a b c hab hbc => rankLe_trans_true a b c hab hbc)
    (fun a b => rankLe_total_true a b)
    ((results.foldl dedupStep []).map (fun p => p.2))
  refine hp.imp ?_
  intro a b hab
  simpa only [rankLe, Bool.or_eq_true, Bool.and_eq_true, decide_eq_true_eq]
    using hab

theorem claim_C5_amended_witness :
    List.Pairwise (fun a b =>
        b.severity.value < a.severity.value ∨
        (b.severity.value = a.severity.value ∧
          b.confidence_score ≤ a.confidence_score))
      (deduplicate_and_prioritize [anomalyLowConf, anomalyHighConf]) :=
  claim_C5_amended [anomalyLowConf, anomalyHighConf]

/-- The ranking order claim C5 asserts: severity descending, confidence
descending, `observed_at` ascending, final tie broken by lexicographically
smaller device id first. -/
def specRank (a b : AnomalyResult) : Prop :=
  b.severity.value < a.severity.value ∨
  (b.severity.value = a.severity.value ∧
    (b.confidence_score < a.confidence_score ∨
      (b.confidence_score = a.confidence_score ∧
        (a.timestamp < b.timestamp ∨
          (a.timestamp = b.timestamp ∧ a.device_id ≤ b.device_id)))))

/-- A critical pressure anomaly on device `b-dev`, observed second but fed
to the deduplication first. -/
def anomalyRb : AnomalyResult :=
  { device_id := "b-dev", anomaly_type := .pressure_anomaly,
    severity := .critical, confidence_score := 1/2, predicted_value := 0,
    actual_value := 0, threshold := 0, timestamp := 2,
    description := "late", recommendation := "", model_used := "m" }

/-- An equally severe, equally confident pressure anomaly on device `a-dev`
with the earlier observation time. -/
def anomalyRa : AnomalyResult :=
  { anomalyRb with device_id := "a-dev", timestamp := 1 }

/-- **C5, counterexample.** Two results tied on (severity, confidence)
stay in first-encounter order: the output is not sorted by `observed_at`
ascending (nor by device id), contradicting the claimed ranking order. -/
theorem claim_C5_counterexample :
    deduplicate_and_prioritize [anomalyRb, anomalyRa] =
      [anomalyRb, anomalyRa] ∧
    anomalyRb.severity = anomalyRa.severity ∧
    anomalyRb.confidence_score = anomalyRa.confidence_score ∧
    anomalyRa.timestamp < anomalyRb.timestamp ∧
    ¬ List.Pairwise specRank (deduplicate_and_prioritize [anomalyRb, anomalyRa]) := by
  have hfold : [anomalyRb, anomalyRa].foldl dedupStep [] =
      [(anomalyKey anomalyRb, anomalyRb), (anomalyKey anomalyRa, anomalyRa)] := rfl
  have hsorted : List.Pairwise (fun a b => rankLe a b = true)
      [anomalyRb, anomalyRa] := by
    rw [List.pairwise_cons]
    refine ⟨?_, List.pairwise_singleton _ _⟩
    intro b hb
    rw [List.mem_singleton.mp hb]
    simp only [rankLe, Bool.or_eq_true, Bool.and_eq_true, decide_eq_true_eq]
    exact Or.inr ⟨rfl, le_refl _⟩
  have heq : deduplicate_and_prioritize [anomalyRb, anomalyRa] =
      [anomalyRb, anomalyRa] := by
    unfold deduplicate_and_prioritize
    rw [hfold, List.map_cons, List.map_cons, List.map_nil]
    exact List.mergeSort_of_sorted hsorted
  refine ⟨heq, rfl, rfl, by norm_num [anomalyRb, anomalyRa], ?_⟩
  rw [heq]
  intro h
  have hrel : specRank anomalyRb anomalyRa :=
    List.rel_of_pairwise_cons h (List.mem_singleton.mpr rfl)
  simp only [specRank, anomalyRb, anomalyRa, SeverityLevel.value] at hrel
  norm_num at hrel

theorem claim_C6_amended_witness :
    0 ≤ calculate_data_quality pressureOutReading ∧
      calculate_data_quality pressureOutReading ≤ 1 :=
  ⟨(claim_C6_amended pressureOutReading).2.1,
   (claim_C6_amended pressureOutReading).2.2⟩

/-! ## `SelfHealingSystem.parse_prometheus_metrics`

The parser is called with its default empty name filter. Python
`float(value)` is abstracted as an explicit parse oracle `pf`; `pf v = none`
is the `ValueError` path, which skips the line. -/

/-- Python `text.split(newline)`: structural line splitting (the built-in
`String.splitOn` is not kernel-reducible, so the split is spelled out). -/
def splitLinesAux : List Char → List Char → List String
  | [], acc => [String.mk acc.reverse]
  | c :: rest, acc =>
      if c = '\n' then String.mk acc.reverse :: splitLinesAux rest []
      else splitLinesAux rest (c :: acc)

def splitLines (s : String) : List String := splitLinesAux s.toList []

/-- Python `line.startswith(hash)`. -/
def pyStartsWithHash (line : String) : Bool :=
  match line.toList with
  | [] => false
  | c :: _ => c = '#'

/-- The whitespace set of Python `str.strip()`. -/
def pyWhitespace : List Char := [' ', '\t', '\n', '\x0b', '\x0c', '\r']

/-- Python `not line.strip()`: the line is empty or all whitespace. -/
def pyStripEmpty (line : String) : Bool :=
  line.toList.all (fun c => pyWhitespace.contains c)

/-- Python membership test of the space character in the line. -/
def hasSpaceChar (line : String) : Bool :=
  line.toList.contains ' '

/-- Python rsplit-once-on-space for a line that contains a space: the text
before the last space and the text after it. -/
def rsplitLast (line : String) : String × String :=
  let rev := line.toList.reverse
  (String.mk (((rev.dropWhile (fun c => c ≠ ' ')).drop 1).reverse),
   String.mk ((rev.takeWhile (fun c => c ≠ ' ')).reverse))

def leftBraceChar : Char := Char.ofNat 123

/-- Python `metric_name.split(chr(123))[0]`: the metric name up to the
first label brace. -/
def stripLabels (s : String) : String :=
  String.mk (s.toList.takeWhile (fun c => c ≠ leftBraceChar))

abbrev Metrics := List (String × ℚ)

/-- One iteration of the parsing loop of `parse_prometheus_metrics`. -/
def parseMetricLine (pf : String → Option ℚ) (m : Metrics) (line : String) :
    Metrics :=
  if pyStartsWithHash line then m
  else if pyStripEmpty line then m
  else if hasSpaceChar line then
    match pf (rsplitLast line).2 with
    | some q => dictSet m (stripLabels (rsplitLast line).1) q
    | none => m
  else m

/-- `SelfHealingSystem.parse_prometheus_metrics` with the default empty
name filter: split on newlines and fold the line parser over an initially
empty dict. -/
def parse_prometheus_metrics (pf : String → Option ℚ) (metrics_text : String) :
    Metrics :=
  (splitLines metrics_text).foldl (parseMetricLine pf) []

/-- Does a line write the metric entry `k`? (Not a comment, not blank, has
a space, its value parses, and its label-stripped name is `k`.) -/
def writesKey (pf : String → Option ℚ) (line : String) (k : String) : Bool :=
  !pyStartsWithHash line && !pyStripEmpty line && hasSpaceChar line &&
    (pf (rsplitLast line).2).isSome && (stripLabels (rsplitLast line).1 == k)

theorem parseMetricLine_not_writes (pf : String → Option ℚ) (k : String) :
    ∀ (m : Metrics) (line : String), writesKey pf line k = false →
      dictLookup (parseMetricLine pf m line) k = dictLookup m k := by
  intro m line hw
  unfold parseMetricLine
  by_cases h1 : pyStartsWithHash line
  · rw [if_pos h1]
  · rw [if_neg h1]
    have hb1 : pyStartsWithHash line = false := Bool.eq_false_iff.mpr h1
    by_cases h2 : pyStripEmpty line
    · rw [if_pos h2]
    · rw [if_neg h2]
      have hb2 : pyStripEmpty line = false := Bool.eq_false_iff.mpr h2
      by_cases h3 : hasSpaceChar line
      · rw [if_pos h3]
        cases hq : pf (rsplitLast line).2 with
        | none => rfl
        | some q =>
            have hk : stripLabels (rsplitLast line).1 ≠ k := by
              intro he
              have ht : writesKey pf line k = true := by
                unfold writesKey
                rw [hb1, hb2, hq, he]
                simp [h3]
              rw [ht] at hw
              cases hw
            exact dictLookup_dictSet_ne m _ k q (Ne.symm hk)
      · rw [if_neg h3]

theorem parse_lines_preserve (pf : String → Option ℚ) (k : String) :
    ∀ (lines : List String) (m : Metrics),
      (∀ l2 ∈ lines, writesKey pf l2 k = false) →
      dictLookup (lines.foldl (parseMetricLine pf) m) k = dictLookup m k := by
  intro lines
  induction lines with
  | nil => intro m _; rfl
  | cons l rest ih =>
      intro m h
      rw [List.foldl_cons,
        ih _ (fun l2 h2 => h l2 (List.mem_cons_of_mem l h2)),
        parseMetricLine_not_writes pf k m l (h l (List.mem_cons_self l rest))]

/-- **C8.** For every input text and every model of Python float parsing:
comment lines and blank lines contribute nothing; a line with a space whose
last token parses as a float writes exactly the entry whose key is the
metric name with any label suffix stripped and whose value is that float;
every line either leaves the map unchanged or writes exactly one entry (no
line can fail the parser); and the parsed map of the whole text holds that
entry as long as no later line writes the same key. -/
theorem claim_C8_metrics_parsing (pf : String → Option ℚ) :
    (∀ (m : Metrics) (line : String),
      pyStartsWithHash line = true ∨ pyStripEmpty line = true →
      parseMetricLine pf m line = m) ∧
    (∀ (m : Metrics) (line : String) (q : ℚ),
      pyStartsWithHash line = false → pyStripEmpty line = false →
      hasSpaceChar line = true → pf (rsplitLast line).2 = some q →
      parseMetricLine pf m line =
        dictSet m (stripLabels (rsplitLast line).1) q) ∧
    (∀ (m : Metrics) (line : String),
      parseMetricLine pf m line = m ∨
      ∃ k q, parseMetricLine pf m line = dictSet m k q) ∧
    (∀ (metrics_text line : String) (pre post : List String) (q : ℚ),
      splitLines metrics_text = pre ++ line :: post →
      pyStartsWithHash line = false → pyStripEmpty line = false →
      hasSpaceChar line = true → pf (rsplitLast line).2 = some q →
      (∀ l2 ∈ post, writesKey pf l2 (stripLabels (rsplitLast line).1) = false) →
      dictLookup (parse_prometheus_metrics pf metrics_text)
        (stripLabels (rsplitLast line).1) = some q) := by
  have hskip : ∀ (m : Metrics) (line : String),
      pyStartsWithHash line = true ∨ pyStripEmpty line = true →
      parseMetricLine pf m line = m := by
    intro m line h
    unfold parseMetricLine
    rcases h with h | h
    · rw [if_pos h]
    · by_cases h1 : pyStartsWithHash line
      · rw [if_pos h1]
      · rw [if_neg h1, if_pos h]
  have hwrite : ∀ (m : Metrics) (line : String) (q : ℚ),
      pyStartsWithHash line = false → pyStripEmpty line = false →
      hasSpaceChar line = true → pf (rsplitLast line).2 = some q →
      parseMetricLine pf m line =
        dictSet m (stripLabels (rsplitLast line).1) q := by
    intro m line q h1 h2 h3 h4
    unfold parseMetricLine
    rw [if_neg (by simp [h1]), if_neg (by simp [h2]), if_pos h3, h4]
  refine ⟨hskip, hwrite, ?_, ?_⟩
  · intro m line
    unfold parseMetricLine
    by_cases h1 : pyStartsWithHash line
    · left; rw [if_pos h1]
    · rw [if_neg h1]
      by_cases h2 : pyStripEmpty line
      · left; rw [if_pos h2]
      · rw [if_neg h2]
        by_cases h3 : hasSpaceChar line
        · rw [if_pos h3]
          cases hq : pf (rsplitLast line).2 with
          | none => left; rfl
          | some q => right; exact ⟨stripLabels (rsplitLast line).1, q, rfl⟩
        · left; rw [if_neg h3]
  · intro metrics_text line pre post q hsplit h1 h2 h3 h4 hpost
    unfold parse_prometheus_metrics
    rw [hsplit, List.foldl_append, List.foldl_cons]
    rw [parse_lines_preserve pf _ post _ hpost]
    rw [hwrite _ line q h1 h2 h3 h4]
    exact dictLookup_dictSet_self _ _ q

/-- A concrete float-parse oracle recognizing the single token `42.5`. -/
def pfC8 : String → Option ℚ := fun s => if s = "42.5" then some (85/2) else none

/-- A Prometheus scrape body: a comment, a labelled sample, a blank line
and a junk line. -/
def textC8 : String :=
  "# HELP requests\nhttp_requests_total\x7bcode=200\x7d 42.5\n\njunk"

theorem claim_C8_metrics_parsing_witness :
    dictLookup (parse_prometheus_metrics pfC8 textC8) "http_requests_total" =
      some (85/2) :=
  (claim_C8_metrics_parsing pfC8).2.2.2 textC8
    ("http_requests_total\x7bcode=200\x7d 42.5") ["# HELP requests"] ["", "junk"]
    (85/2) rfl rfl rfl rfl rfl (by decide)

end SmartSensor
